import Mathlib

/-! Verification development for the ideep computation-cache / fusion-web layer
    (src/include/ideep/computations.hpp). Byte-level cache-key serialization,
    the LRU computation cache, format negotiation, the lazy fusion dispatch and
    the batch-normalization folding algorithm are embedded shallowly and the
    specified properties are settled against the embedding. -/

namespace Ideep

/-! ## Byte strings and scalar serialization

Modelled from the spec: `utils::bytestring` is an opaque byte sequence and
`utils::to_bytes` is a deterministic encoding of scalar values (utils.hpp is
not among the sources; spec §3 describes the cache key as a "deterministic
serialization ... into an opaque byte sequence").  A 32-bit scalar (float bit
pattern, enum tag, int) is encoded as its four little-endian raw bytes. -/

abbrev Bytestring := List Nat

/-- Bit patterns of 32-bit scalars (floats, enum tags, ints) as they reach the
serializer. -/
abbrev U32 := Fin 4294967296

/-- Modelled from the spec: `utils::to_bytes` on a 32-bit scalar emits the four
little-endian bytes of its bit pattern (utils.hpp is missing from src/; the
spec only requires a deterministic byte encoding). -/
def bytes4 (x : U32) : Bytestring :=
  [x.val % 256, x.val / 256 % 256, x.val / 65536 % 256, x.val / 16777216 % 256]

/-- Byte value of the ASCII dot separator that `post_ops::to_bytes` inserts
between the fields of one post operation. -/
def dotByte : Nat := 46

theorem bytes4_length (x : U32) : (bytes4 x).length = 4 := rfl

theorem bytes4_inj {x y : U32} (h : bytes4 x = bytes4 y) : x = y := by
  have hx := x.isLt
  have hy := y.isLt
  simp only [bytes4, List.cons.injEq, and_true] at h
  obtain ⟨h0, h1, h2, h3⟩ := h
  apply Fin.ext
  omega

/-! ## Post operations and their serialization -/

/-- Post operations reachable through `post_ops::append` in the source: only
`kind::sum` and `kind::eltwise` are ever appended (computations.hpp lines
106-122), and `get_params` fails on every other kind, so a serializable
post-op list holds only these two shapes.  Scalar parameters are carried as
32-bit patterns. -/
inductive PostOp
  | sum (scale : U32)
  | eltwise (scale alpha beta : U32) (alg : U32)
deriving DecidableEq

/-- Serialization of a single post operation, mirroring the per-item cases of
`post_ops::to_bytes` (computations.hpp lines 157-167): the 4-byte kind tag,
then the scalar fields, separated by ASCII dots.  The tags 2 (`kind::sum`) and
5 (`kind::eltwise`) stand for the two distinct engine enum values; the leaf
encoder `utils::to_bytes` is modelled by `bytes4`. -/
def postOpBytes : PostOp → Bytestring
  | .sum s => 2 :: 0 :: 0 :: 0 :: dotByte :: bytes4 s
  | .eltwise s a b g =>
      5 :: 0 :: 0 :: 0 :: dotByte ::
        (bytes4 s ++ dotByte :: (bytes4 a ++ dotByte :: (bytes4 b ++ dotByte :: bytes4 g)))

/-- Serialization of a post-op list, mirroring the loop of
`post_ops::to_bytes` (computations.hpp lines 148-171): the per-item encodings
are concatenated in list order and nothing else is emitted — in particular no
item count is written. -/
def post_ops.to_bytes (ps : List PostOp) : Bytestring :=
  (ps.map postOpBytes).flatten

/-- Modelled from the spec: the post-op serialization exactly as §4.2 words it,
"an explicit count prefix" (encoded like every other 32-bit scalar) followed by
the per-item canonical encodings.  This definition follows the spec text and is
compared against `post_ops.to_bytes`, which follows the source. -/
def specCountedPostOpsBytes (ps : List PostOp) : Bytestring :=
  bytes4 ((ps.length : U32)) ++ (ps.map postOpBytes).flatten

theorem chunk_peel {x y : U32} {r s : Bytestring}
    (h : bytes4 x ++ r = bytes4 y ++ s) : x = y ∧ r = s := by
  have hp := List.append_inj h (by simp [bytes4])
  exact ⟨bytes4_inj hp.1, hp.2⟩

theorem postOpBytes_inj_append {p q : PostOp} {r s : Bytestring}
    (h : postOpBytes p ++ r = postOpBytes q ++ s) : p = q ∧ r = s := by
  cases p with
  | sum s1 =>
    cases q with
    | sum s2 =>
      simp only [postOpBytes, List.cons_append, List.cons.injEq, true_and] at h
      obtain ⟨hc, hr⟩ := chunk_peel h
      exact ⟨by rw [hc], hr⟩
    | eltwise s2 a2 b2 g2 =>
      simp only [postOpBytes, List.cons_append, List.cons.injEq] at h
      omega
  | eltwise s1 a1 b1 g1 =>
    cases q with
    | sum s2 =>
      simp only [postOpBytes, List.cons_append, List.cons.injEq] at h
      omega
    | eltwise s2 a2 b2 g2 =>
      simp only [postOpBytes, List.cons_append, List.append_assoc,
        List.cons.injEq, true_and] at h
      obtain ⟨hs, h⟩ := chunk_peel h
      simp only [List.cons.injEq, true_and] at h
      obtain ⟨ha, h⟩ := chunk_peel h
      simp only [List.cons.injEq, true_and] at h
      obtain ⟨hb, h⟩ := chunk_peel h
      simp only [List.cons.injEq, true_and] at h
      obtain ⟨hg, h⟩ := chunk_peel h
      exact ⟨by rw [hs, ha, hb, hg], h⟩

theorem postOpsToBytes_inj : ∀ ps qs : List PostOp,
    post_ops.to_bytes ps = post_ops.to_bytes qs → ps = qs := by
  intro ps
  induction ps with
  | nil =>
    intro qs h
    cases qs with
    | nil => rfl
    | cons q qt =>
      exfalso
      cases q <;>
        simp [post_ops.to_bytes, postOpBytes, List.cons_append] at h
  | cons p pt ih =>
    intro qs h
    cases qs with
    | nil =>
      exfalso
      cases p <;>
        simp [post_ops.to_bytes, postOpBytes, List.cons_append] at h
    | cons q qt =>
      simp only [post_ops.to_bytes, List.map_cons, List.flatten_cons] at h
      obtain ⟨hpq, ht⟩ := postOpBytes_inj_append h
      exact by rw [hpq, ih qt ht]

/-- C6 counterexample: the source serialization of a concrete one-element
post-op list (`post_ops::to_bytes`, computations.hpp lines 148-171) is not the
count-prefixed byte sequence the claim describes — the loop emits only the
per-item encodings and never writes an item count. -/
theorem C6_counterexample_no_count :
    ¬ post_ops.to_bytes [PostOp.sum 1] = specCountedPostOpsBytes [PostOp.sum 1] := by
  decide

/-- C6 (amended): `post_ops::to_bytes` emits no count prefix — it is the plain
in-order concatenation of the per-item encodings — yet two different post-op
lists (in particular different permutations or different lengths) never
serialize to the same byte sequence, because every item starts with a 4-byte
kind tag that determines the item's fixed width. -/
theorem C6_postops_serialization_no_collision :
    ∀ ps qs : List PostOp, ps ≠ qs →
      post_ops.to_bytes ps ≠ post_ops.to_bytes qs := by
  intro ps qs hne h
  exact hne (postOpsToBytes_inj ps qs h)

/-- C6 witness: the amended no-collision theorem applied to two concrete
post-op lists that are permutations of each other. -/
theorem C6_witness :
    post_ops.to_bytes [PostOp.sum 1, PostOp.sum 2] ≠
      post_ops.to_bytes [PostOp.sum 2, PostOp.sum 1] :=
  C6_postops_serialization_no_collision
    [PostOp.sum 1, PostOp.sum 2] [PostOp.sum 2, PostOp.sum 1] (by decide)

/-! ## Attributes and the convolution cache key -/

/-- Tensor data types (`tensor::data_type`), as registered by the
`type_to_id` specializations at the top of computations.hpp. -/
inductive DataType
  | f32
  | s32
  | u8
  | s8
deriving DecidableEq

/-- Modelled from the spec: the engine's enum tag for each data type, entering
the key as a 32-bit scalar (the exact values live in the external engine's
headers; only distinctness and determinism matter here). -/
def dataTypeCode : DataType → U32
  | .f32 => 1
  | .s32 => 2
  | .u8 => 4
  | .s8 => 5

/-- Semantic content of a primitive attribute (`attr_t`): the post-op list,
the output scales and the scale mask.  Two C++ `attr_t` handles with equal
content are equal values here, which is exactly what `attr_t::to_bytes` reads
through its accessors. -/
structure AttrT where
  postOps : List PostOp
  oscales : List U32
  mask : U32
deriving DecidableEq

/-- Serialization of an attribute, mirroring `attr_t::to_bytes`
(computations.hpp lines 256-262): the post-op bytes, then the output scales,
then the mask.  The vector leaf encoding is modelled as the concatenation of
the element encodings. -/
def attr_t.to_bytes (a : AttrT) : Bytestring :=
  post_ops.to_bytes a.postOps
    ++ ((a.oscales.map bytes4).flatten ++ bytes4 a.mask)

/-- Semantic inputs of the biased convolution key derivation, in the argument
order of `convolution_forward::create_computation` (computations.hpp lines
1460-1462). -/
structure ConvConfig where
  srcDataType : DataType
  srcDims : List Nat
  weightsDims : List Nat
  biasDims : List Nat
  dstDims : List Nat
  strides : List Nat
  dilates : List Nat
  paddingL : List Nat
  paddingR : List Nat
  attr : AttrT
  aalgorithm : U32
  apropKind : U32
  apaddingKind : U32
deriving DecidableEq

/-- Modelled from the spec: the `utils::to_bytes` encoding of a dims vector,
the concatenation of the 4-byte encodings of its entries (utils.hpp is missing
from src/). -/
def dimsBytes (ds : List Nat) : Bytestring :=
  (ds.map (fun d => bytes4 (d : U32))).flatten

/-- Modelled from the spec: `utils::create_key` (utils.hpp is missing from
src/) is the deterministic ordered concatenation of the byte encodings of its
arguments; the arguments and their order are the ones passed at
computations.hpp lines 1460-1462. -/
def create_key_conv (c : ConvConfig) : Bytestring :=
  bytes4 (dataTypeCode c.srcDataType) ++ dimsBytes c.srcDims
    ++ dimsBytes c.weightsDims ++ dimsBytes c.biasDims ++ dimsBytes c.dstDims
    ++ dimsBytes c.strides ++ dimsBytes c.dilates ++ dimsBytes c.paddingL
    ++ dimsBytes c.paddingR ++ attr_t.to_bytes c.attr ++ bytes4 c.aalgorithm
    ++ bytes4 c.apropKind ++ bytes4 c.apaddingKind

/-- C5: cache-key derivation is deterministic — the key is a function of
exactly the semantic inputs listed at computations.hpp lines 1460-1462, so two
runs (two configuration values) that agree on every semantic component,
including the attribute content read back through the `attr_t` accessors,
produce byte-identical key strings. -/
theorem C5_key_derivation_deterministic (c₁ c₂ : ConvConfig)
    (hdt : c₁.srcDataType = c₂.srcDataType)
    (hsd : c₁.srcDims = c₂.srcDims)
    (hwd : c₁.weightsDims = c₂.weightsDims)
    (hbd : c₁.biasDims = c₂.biasDims)
    (hdd : c₁.dstDims = c₂.dstDims)
    (hst : c₁.strides = c₂.strides)
    (hdi : c₁.dilates = c₂.dilates)
    (hpl : c₁.paddingL = c₂.paddingL)
    (hpr : c₁.paddingR = c₂.paddingR)
    (hat : c₁.attr = c₂.attr)
    (hal : c₁.aalgorithm = c₂.aalgorithm)
    (hpk : c₁.apropKind = c₂.apropKind)
    (hpd : c₁.apaddingKind = c₂.apaddingKind) :
    create_key_conv c₁ = create_key_conv c₂ := by
  cases c₁
  cases c₂
  simp only at hdt hsd hwd hbd hdd hst hdi hpl hpr hat hal hpk hpd
  subst hdt hsd hwd hbd hdd hst hdi hpl hpr hat hal hpk hpd
  rfl

/-- C5 witness: the determinism theorem applied to two structurally equal
concrete configurations. -/
theorem C5_witness :
    create_key_conv
      ⟨DataType.f32, [1, 3, 8, 8], [4, 3, 3, 3], [4], [1, 4, 8, 8],
        [1, 1], [0, 0], [1, 1], [1, 1], ⟨[PostOp.sum 1], [1], 0⟩, 1, 64, 0⟩
      =
    create_key_conv
      ⟨DataType.f32, [1, 3, 8, 8], [4, 3, 3, 3], [4], [1, 4, 8, 8],
        [1, 1], [0, 0], [1, 1], [1, 1], ⟨[PostOp.sum 1], [1], 0⟩, 1, 64, 0⟩ :=
  C5_key_derivation_deterministic _ _ rfl rfl rfl rfl rfl rfl rfl rfl rfl rfl
    rfl rfl rfl

/-! ## The computation cache

Modelled from the spec: `utils::computation_cache` and the `fetch_or_create_m`
macro live in utils.hpp / lru_cache.hpp, which are not among the sources.
Spec §2 and §4.1 describe the store: an LRU map from fingerprint to
constructed computation object, one instance per operator kind, bounded
capacity, least-recently-used eviction; `fetch_or_create` returns the stored
object on a hit and constructs exactly on a miss.  Constructed objects are
identified by a construction counter, so that "reference-identical" is
expressible as equality of identities. -/

/-- Cache state for one operator kind: the entries in most-recently-used-first
order plus the construction counter handing out object identities. -/
structure CacheState (K : Type) where
  entries : List (K × Nat)
  ctr : Nat

/-- Lookup of the object stored under a key, first match wins. -/
def findVal {K : Type} [DecidableEq K] (k : K) : List (K × Nat) → Option Nat
  | [] => none
  | (k', v) :: rest => if k' = k then some v else findVal k rest

/-- Removal of the first entry stored under a key. -/
def eraseKey {K : Type} [DecidableEq K] (k : K) :
    List (K × Nat) → List (K × Nat)
  | [] => []
  | (k', v) :: rest => if k' = k then rest else (k', v) :: eraseKey k rest

/-- Modelled from the spec: one `fetch_or_create` call against the bounded LRU
cache (§4.1).  A hit returns the stored object and refreshes its recency; a
miss constructs a new object (a fresh identity drawn from the counter),
inserts it most-recent-first and drops whatever exceeds the capacity bound,
evicting the least recently used entry.  The result carries the new state, the
object handed to the caller, and whether a construction happened. -/
def fetchOrCreate {K : Type} [DecidableEq K] (cap : Nat) (st : CacheState K)
    (k : K) : CacheState K × Nat × Bool :=
  match findVal k st.entries with
  | some v => (⟨(k, v) :: eraseKey k st.entries, st.ctr⟩, v, false)
  | none => (⟨((k, st.ctr) :: st.entries).take cap, st.ctr + 1⟩, st.ctr, true)

/-- A sequence of compute calls driving `fetch_or_create` with the listed
keys; the log records for each call the key, the object the caller observed,
and whether that call constructed it. -/
def runCache {K : Type} [DecidableEq K] (cap : Nat) (st : CacheState K) :
    List K → List (K × Nat × Bool)
  | [] => []
  | k :: ks =>
    let r := fetchOrCreate cap st k
    (k, r.2.1, r.2.2) :: runCache cap r.1 ks

/-- Number of constructions performed for key `k` in a call log. -/
def buildsFor {K : Type} [DecidableEq K] (k : K) :
    List (K × Nat × Bool) → Nat
  | [] => 0
  | (k', _, b) :: rest =>
    (if k' = k ∧ b = true then 1 else 0) + buildsFor k rest

theorem findVal_eq_none {K : Type} [DecidableEq K] {k : K} :
    ∀ {c : List (K × Nat)}, findVal k c = none ↔ k ∉ c.map Prod.fst := by
  intro c
  induction c with
  | nil => simp [findVal]
  | cons e rest ih =>
    obtain ⟨k', v⟩ := e
    by_cases hk : k' = k
    · subst hk
      simp [findVal]
    · rw [show findVal k ((k', v) :: rest) = findVal k rest from if_neg hk]
      rw [ih]
      simp only [List.map_cons, List.mem_cons]
      constructor
      · intro h hc
        rcases hc with hc | hc
        · exact hk hc.symm
        · exact h hc
      · intro h hc
        exact h (Or.inr hc)

theorem mem_keys_of_findVal {K : Type} [DecidableEq K] {k : K}
    {c : List (K × Nat)} {v : Nat} (h : findVal k c = some v) :
    k ∈ c.map Prod.fst := by
  by_contra hnot
  rw [← findVal_eq_none] at hnot
  rw [h] at hnot
  exact Option.noConfusion hnot

theorem eraseKey_sublist {K : Type} [DecidableEq K] (k : K) :
    ∀ c : List (K × Nat), List.Sublist (eraseKey k c) c := by
  intro c
  induction c with
  | nil => exact List.Sublist.refl _
  | cons e rest ih =>
    obtain ⟨k', v⟩ := e
    by_cases hk : k' = k
    · rw [show eraseKey k ((k', v) :: rest) = rest from if_pos hk]
      exact List.sublist_cons_self (k', v) rest
    · rw [show eraseKey k ((k', v) :: rest) = (k', v) :: eraseKey k rest
        from if_neg hk]
      exact List.Sublist.cons₂ (k', v) ih

theorem not_mem_keys_eraseKey {K : Type} [DecidableEq K] {k : K} :
    ∀ {c : List (K × Nat)}, (c.map Prod.fst).Nodup →
      k ∉ (eraseKey k c).map Prod.fst := by
  intro c
  induction c with
  | nil =>
    intro _ h
    simp [eraseKey] at h
  | cons e rest ih =>
    obtain ⟨k', v⟩ := e
    intro hnd
    rw [List.map_cons, List.nodup_cons] at hnd
    by_cases hk : k' = k
    · rw [show eraseKey k ((k', v) :: rest) = rest from if_pos hk]
      exact hk ▸ hnd.1
    · rw [show eraseKey k ((k', v) :: rest) = (k', v) :: eraseKey k rest
        from if_neg hk]
      rw [List.map_cons, List.mem_cons]
      rintro (h | h)
      · exact hk h.symm
      · exact ih hnd.2 h

theorem findVal_eraseKey {K : Type} [DecidableEq K] {k k₀ : K} (hne : k ≠ k₀) :
    ∀ c : List (K × Nat), findVal k (eraseKey k₀ c) = findVal k c := by
  intro c
  induction c with
  | nil => rfl
  | cons e rest ih =>
    obtain ⟨k', v⟩ := e
    by_cases h0 : k' = k₀
    · have hkk : k' ≠ k := fun hc => hne (hc ▸ h0 ▸ rfl)
      rw [show eraseKey k₀ ((k', v) :: rest) = rest from if_pos h0]
      rw [show findVal k ((k', v) :: rest) = findVal k rest from if_neg hkk]
    · rw [show eraseKey k₀ ((k', v) :: rest) = (k', v) :: eraseKey k₀ rest
        from if_neg h0]
      by_cases h1 : k' = k
      · rw [show findVal k ((k', v) :: eraseKey k₀ rest) = some v
          from if_pos h1]
        rw [show findVal k ((k', v) :: rest) = some v from if_pos h1]
      · rw [show findVal k ((k', v) :: eraseKey k₀ rest) =
          findVal k (eraseKey k₀ rest) from if_neg h1]
        rw [show findVal k ((k', v) :: rest) = findVal k rest from if_neg h1]
        exact ih

theorem mem_keys_eraseKey_of_ne {K : Type} [DecidableEq K] {x k₀ : K}
    (hne : x ≠ k₀) :
    ∀ {c : List (K × Nat)}, x ∈ c.map Prod.fst →
      x ∈ (eraseKey k₀ c).map Prod.fst := by
  intro c
  induction c with
  | nil =>
    intro h
    simp at h
  | cons e rest ih =>
    obtain ⟨k', v⟩ := e
    intro hx
    rw [List.map_cons, List.mem_cons] at hx
    by_cases h0 : k' = k₀
    · rw [show eraseKey k₀ ((k', v) :: rest) = rest from if_pos h0]
      rcases hx with hx | hx
      · exact absurd (hx ▸ h0) hne
      · exact hx
    · rw [show eraseKey k₀ ((k', v) :: rest) = (k', v) :: eraseKey k₀ rest
        from if_neg h0]
      rw [List.map_cons, List.mem_cons]
      rcases hx with hx | hx
      · exact Or.inl hx
      · exact Or.inr (ih hx)

/-- Main invariant induction for the bounded LRU cache: starting from a store
with distinct keys, as long as the keys of the store together with the keys of
the remaining calls fit into the capacity, no eviction ever happens, so every
resident key is never rebuilt, every key is built at most once, calls to a
resident key observe the stored object, and all calls with an equal key
observe the same object. -/
theorem runCache_lru_main {K : Type} [DecidableEq K] (cap : Nat) :
    ∀ (ks : List K) (c : List (K × Nat)) (ctr : Nat),
      (c.map Prod.fst).Nodup →
      ((c.map Prod.fst).toFinset ∪ ks.toFinset).card ≤ cap →
      (∀ k, buildsFor k (runCache cap ⟨c, ctr⟩ ks) ≤
          (if k ∈ c.map Prod.fst then 0 else 1)) ∧
      (∀ k v, findVal k c = some v →
          ∀ v' b, (k, v', b) ∈ runCache cap ⟨c, ctr⟩ ks → v' = v) ∧
      (∀ k v₁ b₁ v₂ b₂, (k, v₁, b₁) ∈ runCache cap ⟨c, ctr⟩ ks →
          (k, v₂, b₂) ∈ runCache cap ⟨c, ctr⟩ ks → v₁ = v₂) := by
  intro ks
  induction ks with
  | nil =>
    intro c ctr hnd hcard
    refine ⟨fun k => ?_, fun k v h v' b hmem => ?_, fun k v₁ b₁ v₂ b₂ h₁ h₂ => ?_⟩
    · simp [runCache, buildsFor]
    · simp [runCache] at hmem
    · simp [runCache] at h₁
  | cons k₀ rest ih =>
    intro c ctr hnd hcard
    cases hfind : findVal k₀ c with
    | some v =>
      have hk₀mem : k₀ ∈ c.map Prod.fst := mem_keys_of_findVal hfind
      have hrun : runCache cap ⟨c, ctr⟩ (k₀ :: rest) =
          (k₀, v, false) ::
            runCache cap ⟨(k₀, v) :: eraseKey k₀ c, ctr⟩ rest := by
        simp [runCache, fetchOrCreate, hfind]
      have hnd' : (((k₀, v) :: eraseKey k₀ c).map Prod.fst).Nodup := by
        simp only [List.map_cons, List.nodup_cons]
        exact ⟨not_mem_keys_eraseKey hnd,
          ((eraseKey_sublist k₀ c).map Prod.fst).nodup hnd⟩
      have hsetEq : ∀ x, x ∈ ((k₀, v) :: eraseKey k₀ c).map Prod.fst ↔
          x ∈ c.map Prod.fst := by
        intro x
        constructor
        · intro hx
          simp only [List.map_cons, List.mem_cons] at hx
          rcases hx with hx | hx
          · exact hx ▸ hk₀mem
          · exact ((eraseKey_sublist k₀ c).map Prod.fst).mem hx
        · intro hx
          simp only [List.map_cons, List.mem_cons]
          by_cases hxk : x = k₀
          · exact Or.inl hxk
          · exact Or.inr (mem_keys_eraseKey_of_ne hxk hx)
      have hcard' :
          ((((k₀, v) :: eraseKey k₀ c).map Prod.fst).toFinset ∪
            rest.toFinset).card ≤ cap := by
        refine le_trans (Finset.card_le_card ?_) hcard
        intro x hx
        simp only [Finset.mem_union, List.mem_toFinset] at hx ⊢
        rcases hx with hx | hx
        · exact Or.inl ((hsetEq x).mp hx)
        · exact Or.inr (List.mem_cons_of_mem k₀ hx)
      have hfind' : ∀ k, findVal k ((k₀, v) :: eraseKey k₀ c) =
          if k = k₀ then some v else findVal k c := by
        intro k
        by_cases hk : k = k₀
        · subst hk
          rw [if_pos rfl]
          exact if_pos rfl
        · rw [if_neg hk]
          rw [show findVal k ((k₀, v) :: eraseKey k₀ c) =
            findVal k (eraseKey k₀ c) from if_neg (fun hc => hk hc.symm)]
          exact findVal_eraseKey hk c
      obtain ⟨IH1, IH2, IH3⟩ := ih ((k₀, v) :: eraseKey k₀ c) ctr hnd' hcard'
      rw [hrun]
      refine ⟨fun k => ?_, fun k w hw v' b hmem => ?_,
        fun k v₁ b₁ v₂ b₂ h₁ h₂ => ?_⟩
      · have hhead : buildsFor k ((k₀, v, false) ::
            runCache cap ⟨(k₀, v) :: eraseKey k₀ c, ctr⟩ rest) =
            buildsFor k (runCache cap ⟨(k₀, v) :: eraseKey k₀ c, ctr⟩ rest) := by
          simp [buildsFor]
        rw [hhead]
        refine le_trans (IH1 k) ?_
        by_cases hk : k ∈ c.map Prod.fst
        · rw [if_pos ((hsetEq k).mpr hk), if_pos hk]
        · rw [if_neg (fun hc => hk ((hsetEq k).mp hc)), if_neg hk]
      · rcases List.mem_cons.mp hmem with hh | ht
        · obtain ⟨hk, hv, hb⟩ : k = k₀ ∧ v' = v ∧ b = false := by
            simpa using hh
          subst hk
          rw [hfind] at hw
          rw [hv]
          exact (Option.some.inj hw)
        · have hw' : findVal k ((k₀, v) :: eraseKey k₀ c) = some w := by
            rw [hfind' k]
            by_cases hk : k = k₀
            · subst hk
              rw [hfind] at hw
              rw [if_pos rfl, ← hw]
            · rw [if_neg hk]
              exact hw
          exact IH2 k w hw' v' b ht
      · rcases List.mem_cons.mp h₁ with hh₁ | ht₁ <;>
          rcases List.mem_cons.mp h₂ with hh₂ | ht₂
        · obtain ⟨hk₁, hv₁, hb₁⟩ : k = k₀ ∧ v₁ = v ∧ b₁ = false := by
            simpa using hh₁
          obtain ⟨hk₂, hv₂, hb₂⟩ : k = k₀ ∧ v₂ = v ∧ b₂ = false := by
            simpa using hh₂
          rw [hv₁, hv₂]
        · obtain ⟨hk₁, hv₁, hb₁⟩ : k = k₀ ∧ v₁ = v ∧ b₁ = false := by
            simpa using hh₁
          have hv₂ := IH2 k v (by rw [hk₁, hfind' k₀, if_pos rfl]) v₂ b₂ ht₂
          rw [hv₁, hv₂]
        · obtain ⟨hk₂, hv₂, hb₂⟩ : k = k₀ ∧ v₂ = v ∧ b₂ = false := by
            simpa using hh₂
          have hv₁ := IH2 k v (by rw [hk₂, hfind' k₀, if_pos rfl]) v₁ b₁ ht₁
          rw [hv₂, hv₁]
        · exact IH3 k v₁ b₁ v₂ b₂ ht₁ ht₂
    | none =>
      have hk₀nmem : k₀ ∉ c.map Prod.fst := findVal_eq_none.mp hfind
      have hlen : c.length + 1 ≤ cap := by
        have h1 : (c.map Prod.fst).toFinset.card = c.length := by
          rw [List.toFinset_card_of_nodup hnd, List.length_map]
        have h2 : insert k₀ (c.map Prod.fst).toFinset ⊆
            (c.map Prod.fst).toFinset ∪ (k₀ :: rest).toFinset := by
          intro x hx
          rcases Finset.mem_insert.mp hx with hx | hx
          · exact Finset.mem_union_right _ (by simp [hx])
          · exact Finset.mem_union_left _ hx
        have h3 := le_trans (Finset.card_le_card h2) hcard
        rw [Finset.card_insert_of_not_mem (fun hc =>
          hk₀nmem (List.mem_toFinset.mp hc)), h1] at h3
        exact h3
      have htake : (((k₀, ctr) :: c)).take cap = (k₀, ctr) :: c :=
        List.take_of_length_le (by simpa using hlen)
      have hrun : runCache cap ⟨c, ctr⟩ (k₀ :: rest) =
          (k₀, ctr, true) ::
            runCache cap ⟨(k₀, ctr) :: c, ctr + 1⟩ rest := by
        simp [runCache, fetchOrCreate, hfind, htake]
      have hnd' : (((k₀, ctr) :: c).map Prod.fst).Nodup := by
        simp only [List.map_cons, List.nodup_cons]
        exact ⟨hk₀nmem, hnd⟩
      have hcard' : ((((k₀, ctr) :: c).map Prod.fst).toFinset ∪
          rest.toFinset).card ≤ cap := by
        refine le_trans (le_of_eq (congrArg Finset.card ?_)) hcard
        simp only [List.map_cons, List.toFinset_cons]
        rw [Finset.insert_union, Finset.union_insert]
      have hfind' : ∀ k, findVal k ((k₀, ctr) :: c) =
          if k₀ = k then some ctr else findVal k c := fun k => rfl
      obtain ⟨IH1, IH2, IH3⟩ := ih ((k₀, ctr) :: c) (ctr + 1) hnd' hcard'
      rw [hrun]
      refine ⟨fun k => ?_, fun k w hw v' b hmem => ?_,
        fun k v₁ b₁ v₂ b₂ h₁ h₂ => ?_⟩
      · by_cases hk : k = k₀
        · subst hk
          have hre : buildsFor k ((k, ctr, true) ::
              runCache cap ⟨(k, ctr) :: c, ctr + 1⟩ rest) =
              1 + buildsFor k (runCache cap ⟨(k, ctr) :: c, ctr + 1⟩ rest) := by
            simp [buildsFor]
          rw [hre, if_neg hk₀nmem]
          have := IH1 k
          rw [if_pos (by simp)] at this
          omega
        · have hne₀ : ¬k₀ = k := fun hc => hk hc.symm
          have hre : buildsFor k ((k₀, ctr, true) ::
              runCache cap ⟨(k₀, ctr) :: c, ctr + 1⟩ rest) =
              buildsFor k (runCache cap ⟨(k₀, ctr) :: c, ctr + 1⟩ rest) := by
            simp [buildsFor, hne₀]
          rw [hre]
          refine le_trans (IH1 k) ?_
          by_cases hkc : k ∈ c.map Prod.fst
          · rw [if_pos (by simp [hkc]), if_pos hkc]
          · rw [if_neg (by simp [hkc, fun hc => hk hc]), if_neg hkc]
      · have hkne : k ≠ k₀ := by
          intro hc
          subst hc
          rw [hfind] at hw
          exact Option.noConfusion hw
        rcases List.mem_cons.mp hmem with hh | ht
        · obtain ⟨hk, hv, hb⟩ : k = k₀ ∧ v' = ctr ∧ b = true := by
            simpa using hh
          exact absurd hk hkne
        · have hw' : findVal k ((k₀, ctr) :: c) = some w := by
            rw [hfind' k, if_neg (fun hc => hkne hc.symm)]
            exact hw
          exact IH2 k w hw' v' b ht
      · rcases List.mem_cons.mp h₁ with hh₁ | ht₁ <;>
          rcases List.mem_cons.mp h₂ with hh₂ | ht₂
        · obtain ⟨hk₁, hv₁, hb₁⟩ : k = k₀ ∧ v₁ = ctr ∧ b₁ = true := by
            simpa using hh₁
          obtain ⟨hk₂, hv₂, hb₂⟩ : k = k₀ ∧ v₂ = ctr ∧ b₂ = true := by
            simpa using hh₂
          rw [hv₁, hv₂]
        · obtain ⟨hk₁, hv₁, hb₁⟩ : k = k₀ ∧ v₁ = ctr ∧ b₁ = true := by
            simpa using hh₁
          have hv₂ := IH2 k ctr
            (by rw [hk₁, hfind' k₀, if_pos rfl]) v₂ b₂ ht₂
          rw [hv₁, hv₂]
        · obtain ⟨hk₂, hv₂, hb₂⟩ : k = k₀ ∧ v₂ = ctr ∧ b₂ = true := by
            simpa using hh₂
          have hv₁ := IH2 k ctr
            (by rw [hk₂, hfind' k₀, if_pos rfl]) v₁ b₁ ht₁
          rw [hv₂, hv₁]
        · exact IH3 k v₁ b₁ v₂ b₂ ht₁ ht₂

/-- C1 counterexample: with the spec's bounded LRU eviction (§4.1 sets a
bounded capacity per operator kind), a cache of capacity 1 driven by the key
sequence 0, 1, 0 constructs the object for key 0 twice — the claim's
"at most one construction per (operator_kind, key) pair for the lifetime of
the cache" fails once an eviction separates two uses of the key. -/
theorem C1_counterexample_eviction_rebuild :
    ¬ buildsFor 0 (runCache 1 (⟨[], 0⟩ : CacheState Nat) [0, 1, 0]) ≤ 1 := by
  decide

/-- C1 (amended): the computation cache constructs the object for a
(operator kind, key) pair at most once as long as the pair is not evicted by
the bounded LRU policy; in particular, over any sequence of compute calls
whose distinct keys fit within the cache capacity, every key is built at most
once and all calls with an equal key observe the same (reference-identical)
previously built object.  Each operator kind owns its own cache instance, so
one instance is quantified here. -/
theorem C1_cache_at_most_once_within_capacity {K : Type} [DecidableEq K]
    (cap : Nat) (ks : List K) (hcap : ks.toFinset.card ≤ cap) (k : K) :
    buildsFor k (runCache cap ⟨[], 0⟩ ks) ≤ 1 ∧
      ∀ v₁ b₁ v₂ b₂, (k, v₁, b₁) ∈ runCache cap ⟨[], 0⟩ ks →
        (k, v₂, b₂) ∈ runCache cap ⟨[], 0⟩ ks → v₁ = v₂ := by
  obtain ⟨H1, H2, H3⟩ :=
    runCache_lru_main cap ks [] 0 (by simp) (by simpa using hcap)
  exact ⟨le_trans (H1 k) (by simp),
    fun v₁ b₁ v₂ b₂ h₁ h₂ => H3 k v₁ b₁ v₂ b₂ h₁ h₂⟩

/-- C1 witness: the amended at-most-once theorem applied to a concrete
three-call sequence over two distinct keys against a capacity-2 cache. -/
theorem C1_witness :
    buildsFor 0 (runCache 2 (⟨[], 0⟩ : CacheState Nat) [0, 1, 0]) ≤ 1 :=
  (C1_cache_at_most_once_within_capacity 2 [0, 1, 0] (by decide) 0).1

/-! ## Batch-normalization folding (`convolution_forward::bn_folding`)

The numeric steps of computations.hpp lines 1211-1293 are embedded value-wise
over ℚ: each engine call (`cblas_saxpy`, `vsSqrt`, `vsDiv`, `cblas_sscal`,
`sum::compute`, `vsMul`) is translated to its per-element arithmetic effect.
The engine's elementwise square root is abstracted as a function parameter;
float rounding is abstracted by exact arithmetic (spec §4.5 itself specifies
the result only up to floating-point rounding).  The two `reorder::compute`
calls around the weight scaling change only the physical layout, never the
value at a logical index, so they are identities in this value-level view. -/

/-- Per-output-channel batch-normalization statistics carried in the
`bn_attrs` vector: index 0 is the mean, 1 the running variance, 2 the scale
and 3 the shift, exactly as `bn_folding` reads them (computations.hpp lines
1214-1215 and 1272-1274). -/
structure BnAttrs (oc : Nat) where
  mean : Fin oc → ℚ
  variance : Fin oc → ℚ
  scale : Fin oc → ℚ
  shift : Fin oc → ℚ

/-- Factor buffer after the four engine calls of the weights-only
`bn_folding` overload (computations.hpp lines 1217-1238): the buffer starts
as a copy of the variance (`fast_memcpy`), a ones buffer is prepared
(`fast_memset`), `cblas_saxpy` adds `epsilon` times the ones buffer,
`vsSqrt` takes the square root in place and `vsDiv` divides the scale by it
in place. -/
def bn_folding_factor {oc : Nat} (sqrtF : ℚ → ℚ) (bn : BnAttrs oc)
    (epsilon : ℚ) : Fin oc → ℚ :=
  let factor₀ := bn.variance
  let tmp := fun _ : Fin oc => (1 : ℚ)
  let factor₁ := fun o => epsilon * tmp o + factor₀ o
  let factor₂ := fun o => sqrtF (factor₁ o)
  fun o => bn.scale o / factor₂ o

/-- The `bn_folding` overload with bias (computations.hpp lines 1268-1293)
atop the weights-only overload (lines 1211-1266), returning the factor, the
folded weights and the folded bias.  The weight block of output channel `o`
(size `blk`, the product of the remaining weight dimensions) is scaled by
`factor o` via `cblas_sscal`; the bias pipeline is `sum::compute` with
scales (1, -1) against the mean, `vsMul` with the factor, and `sum::compute`
with scales (1, 1) against the shift. -/
def bn_folding {oc blk : Nat} (sqrtF : ℚ → ℚ)
    (weights : Fin oc → Fin blk → ℚ) (bias : Fin oc → ℚ) (bn : BnAttrs oc)
    (epsilon : ℚ) :
    (Fin oc → ℚ) × (Fin oc → Fin blk → ℚ) × (Fin oc → ℚ) :=
  let factor := bn_folding_factor sqrtF bn epsilon
  let foldedW := fun o i => factor o * weights o i
  let bias₁ := fun o => 1 * bias o + (-1) * bn.mean o
  let bias₂ := fun o => bias₁ o * factor o
  let bias₃ := fun o => 1 * bias₂ o + 1 * bn.shift o
  (factor, foldedW, bias₃)

/-- C2: `bn_folding` computes, per output channel `o`, the factor
`scale o / sqrt (variance o + epsilon)`, folds the weights by scaling the
whole weight block of channel `o` by that factor, and returns the folded bias
`factor o * (bias o - mean o) + shift o`. -/
theorem C2_bn_folding_formulas {oc blk : Nat} (sqrtF : ℚ → ℚ)
    (weights : Fin oc → Fin blk → ℚ) (bias : Fin oc → ℚ) (bn : BnAttrs oc)
    (epsilon : ℚ) (o : Fin oc) (i : Fin blk) :
    (bn_folding sqrtF weights bias bn epsilon).1 o =
        bn.scale o / sqrtF (bn.variance o + epsilon) ∧
      (bn_folding sqrtF weights bias bn epsilon).2.1 o i =
        weights o i * ((bn_folding sqrtF weights bias bn epsilon).1 o) ∧
      (bn_folding sqrtF weights bias bn epsilon).2.2 o =
        ((bn_folding sqrtF weights bias bn epsilon).1 o) *
          (bias o - bn.mean o) + bn.shift o := by
  refine ⟨?_, ?_, ?_⟩
  · show bn.scale o / sqrtF (epsilon * 1 + bn.variance o) =
      bn.scale o / sqrtF (bn.variance o + epsilon)
    rw [show epsilon * 1 + bn.variance o = bn.variance o + epsilon by ring]
  · show bn_folding_factor sqrtF bn epsilon o * weights o i =
      weights o i * bn_folding_factor sqrtF bn epsilon o
    ring
  · show 1 * ((1 * bias o + (-1) * bn.mean o) *
        bn_folding_factor sqrtF bn epsilon o) + 1 * bn.shift o =
      bn_folding_factor sqrtF bn epsilon o * (bias o - bn.mean o) + bn.shift o
    ring

/-! ## Tensors, format negotiation and fusion dispatch -/

/-- Tensor descriptor (spec §3): dims, element type and layout tag; equal iff
all components are equal, which the derived equality provides. -/
structure TensorDesc where
  dims : List Nat
  dataType : DataType
  fmt : Nat
deriving DecidableEq

/-- The slice of a `tensor` that the cache / fusion layer inspects: its
descriptor, its raw data handle (`get_data_handle`) and whether a buffer has
been bound (`is_materialized`). -/
structure Tensor where
  desc : TensorDesc
  handle : Nat
  materialized : Bool
deriving DecidableEq

/-- Modelled from the spec: `tensor::is_empty` (tensor.hpp is not among the
sources) — a tensor with no dims, one that §3 would call descriptor-less, is
empty. -/
def Tensor.is_empty (t : Tensor) : Bool := t.desc.dims.isEmpty

/-- Format negotiation for one input position of
`convolution_forward::create_computation` (computations.hpp lines 1469-1472):
the provided tensor is used as-is when its descriptor equals the expected
descriptor of the computation object; otherwise a scratch tensor with the
expected descriptor is initialized, receiving a fresh data handle from the
allocator. -/
def negotiate (freshHandle : Nat) (t : Tensor) (expected : TensorDesc) :
    Tensor :=
  if t.desc = expected then t
  else { desc := expected, handle := freshHandle, materialized := true }

/-- Reorder guard of `convolution_forward::do_compute` (computations.hpp
lines 1510-1511 and 1513-1514): the layout conversion runs exactly when the
data handles of the provided tensor and the negotiated tensor differ. -/
def reorderRuns (t tIn : Tensor) : Prop := t.handle ≠ tIn.handle

/-- C7: a reorder is scheduled if and only if the provided descriptor is
unequal to the expected descriptor; when they are equal the provided tensor
is used as-is and no reorder executes.  The freshness hypothesis states that
the scratch allocator never returns the provided tensor's live handle. -/
theorem C7_reorder_iff_descriptor_mismatch (freshHandle : Nat) (t : Tensor)
    (expected : TensorDesc) (hfresh : freshHandle ≠ t.handle) :
    (reorderRuns t (negotiate freshHandle t expected) ↔ t.desc ≠ expected) ∧
      (t.desc = expected → negotiate freshHandle t expected = t) := by
  by_cases hd : t.desc = expected
  · constructor
    · rw [show negotiate freshHandle t expected = t from if_pos hd]
      unfold reorderRuns
      simp [hd]
    · intro _
      exact if_pos hd
  · constructor
    · rw [show negotiate freshHandle t expected =
        { desc := expected, handle := freshHandle, materialized := true }
        from if_neg hd]
      unfold reorderRuns
      have hfresh' : ¬t.handle = freshHandle := fun hc => hfresh hc.symm
      simp [hd, hfresh']
    · intro hc
      exact absurd hc hd

/-- C7 witness: the negotiation theorem applied to a concrete tensor whose
descriptor differs from the expected one, with a fresh handle distinct from
the tensor's. -/
theorem C7_witness :
    (reorderRuns ⟨⟨[1, 3, 8, 8], DataType.f32, 0⟩, 5, true⟩
        (negotiate 6 ⟨⟨[1, 3, 8, 8], DataType.f32, 0⟩, 5, true⟩
          ⟨[1, 3, 8, 8], DataType.f32, 7⟩) ↔
      (⟨⟨[1, 3, 8, 8], DataType.f32, 0⟩, 5, true⟩ : Tensor).desc ≠
        ⟨[1, 3, 8, 8], DataType.f32, 7⟩) ∧
      ((⟨⟨[1, 3, 8, 8], DataType.f32, 0⟩, 5, true⟩ : Tensor).desc =
          ⟨[1, 3, 8, 8], DataType.f32, 7⟩ →
        negotiate 6 ⟨⟨[1, 3, 8, 8], DataType.f32, 0⟩, 5, true⟩
          ⟨[1, 3, 8, 8], DataType.f32, 7⟩ =
          ⟨⟨[1, 3, 8, 8], DataType.f32, 0⟩, 5, true⟩) :=
  C7_reorder_iff_descriptor_mismatch 6 ⟨⟨[1, 3, 8, 8], DataType.f32, 0⟩, 5, true⟩
    ⟨[1, 3, 8, 8], DataType.f32, 7⟩ (by decide)

/-! ## Fusion dispatch (`fuse_if_necessary` and the computation web) -/

/-- Fusion types of the computation web
(`utils::computation_web::node::fusion_type_t`), as dispatched over in
`convolution_forward::fuse_if_necessary` (computations.hpp lines 1642-1656). -/
inductive FusionType
  | NA
  | RELU
  | SUM
  | BN
deriving DecidableEq

/-- Fusion attribute folded backward onto a node's target tensor: the fusion
type, its scalar parameters and the extra dependency tensors (spec §3,
`FusionAttr`). -/
structure FusionAttr where
  ftype : FusionType
  fattrs : List ℚ
  deps : List Tensor

/-- Rewrites that `fuse_if_necessary` can request from the captured
`conv_fuse` closure: appending a relu post-pass
(`attr_t::fuse_relu(1.0, fattrs[0], fattrs[1])`) or accumulating into an
existing destination (`attr_t::fuse_sum(fattrs[0])`). -/
inductive FusionRewrite
  | relu (alpha beta : ℚ)
  | residual (scale : ℚ)
deriving BEq

/-- Dispatch of `convolution_forward::fuse_if_necessary` (computations.hpp
lines 1637-1657): relu fusion is handed to `conv_fuse` directly; sum
(residual) fusion is skipped — no fused node — when the destination is not
materialized, as the source comments "skip if src0(dst) is not materialized";
batch-norm folding is handed to the `conv_bn_folding` closure; every other
type yields no fused node.  The closures may themselves decline (return no
node) when their dependency setup fails, so they are abstracted as
option-valued parameters. -/
def fuse_if_necessary (convFuse : FusionRewrite → Option Nat)
    (convBnFold : Option Nat) (tarAttr : FusionAttr) (dst : Tensor) :
    Option Nat :=
  match tarAttr.ftype with
  | .RELU =>
    convFuse (.relu (tarAttr.fattrs.getD 0 0) (tarAttr.fattrs.getD 1 0))
  | .SUM =>
    if ¬ dst.materialized then none
    else convFuse (.residual (tarAttr.fattrs.getD 0 0))
  | .BN => convBnFold
  | .NA => none

/-- Outcome of firing a pending node whose target carries a fusion
attribute. -/
inductive FireOutcome
  | fusedFire (n : Nat)
  | plainFire
deriving DecidableEq

/-- Modelled from the spec: the computation web's firing step around
`fuse_if_necessary` (web.hpp is not among the sources).  Spec §4.4 has the
dispatch invoked when a node is about to fire, and §7 has unsupported or
declined fusions "fall back to unfused execution rather than failing": when
no fused node comes back, the node executes as a plain unfused operator. -/
def fire_with_fusion (convFuse : FusionRewrite → Option Nat)
    (convBnFold : Option Nat) (tarAttr : FusionAttr) (dst : Tensor) :
    FireOutcome :=
  match fuse_if_necessary convFuse convBnFold tarAttr dst with
  | some n => .fusedFire n
  | none => .plainFire

/-- C3: for a node whose target carries a residual-sum fusion attribute, an
unmaterialized destination makes `fuse_if_necessary` return no fused node and
the node fires as a plain unfused operator without error; conversely a fused
node is produced only when the destination is already materialized. -/
theorem C3_residual_sum_needs_materialized_dst
    (convFuse : FusionRewrite → Option Nat) (convBnFold : Option Nat)
    (tarAttr : FusionAttr) (dst : Tensor) (hsum : tarAttr.ftype = .SUM) :
    (dst.materialized = false →
      fuse_if_necessary convFuse convBnFold tarAttr dst = none ∧
        fire_with_fusion convFuse convBnFold tarAttr dst = .plainFire) ∧
      (∀ n, fuse_if_necessary convFuse convBnFold tarAttr dst = some n →
        dst.materialized = true) := by
  constructor
  · intro hmat
    have hnone : fuse_if_necessary convFuse convBnFold tarAttr dst = none := by
      unfold fuse_if_necessary
      rw [hsum]
      simp [hmat]
    exact ⟨hnone, by unfold fire_with_fusion; rw [hnone]⟩
  · intro n hn
    by_contra hmat
    have hmat' : dst.materialized = false := by
      cases hdm : dst.materialized
      · rfl
      · exact absurd hdm hmat
    unfold fuse_if_necessary at hn
    rw [hsum] at hn
    simp [hmat'] at hn

/-- C3 witness: the residual-sum theorem applied to a concrete sum-fused
attribute and a concrete unmaterialized destination tensor. -/
theorem C3_witness :
    fuse_if_necessary (fun _ => some 7) none
        ⟨FusionType.SUM, [1], []⟩ ⟨⟨[1, 4, 8, 8], DataType.f32, 0⟩, 3, false⟩ =
        none ∧
      fire_with_fusion (fun _ => some 7) none
        ⟨FusionType.SUM, [1], []⟩ ⟨⟨[1, 4, 8, 8], DataType.f32, 0⟩, 3, false⟩ =
        FireOutcome.plainFire :=
  (C3_residual_sum_needs_materialized_dst (fun _ => some 7) none
    ⟨FusionType.SUM, [1], []⟩ ⟨⟨[1, 4, 8, 8], DataType.f32, 0⟩, 3, false⟩
    rfl).1 rfl

/-- Modelled from the spec: the computation web's backward fold of an
activation attribute (web.hpp is not among the sources).  Spec §4.4: the
activation rewrite "applies only if the node's output is not yet materialized
(an already-materialized output cannot be rewritten in place)"; when that
guard passes, the dispatch defers to the operator's `fuse_if_necessary`,
whose relu case (computations.hpp lines 1643-1645) performs the attribute
rewrite through `conv_fuse`. -/
def web_activation_fold (convFuse : FusionRewrite → Option Nat)
    (convBnFold : Option Nat) (tarAttr : FusionAttr) (out : Tensor) :
    Option Nat :=
  if out.materialized then none
  else fuse_if_necessary convFuse convBnFold tarAttr out

/-- Fusion attribute produced by `eltwise_forward::compute` under the web
optimization (computations.hpp lines 3499-3502): a relu algorithm yields a
relu fusion attribute carrying alpha and beta, anything else a non-fusing
attribute. -/
def eltwise_fusion_attr (isRelu : Bool) (alpha beta : ℚ) : FusionAttr :=
  if isRelu then ⟨.RELU, [alpha, beta], []⟩ else ⟨.NA, [], []⟩

/-- C4: the activation (relu) rewrite folded backward from a later eltwise
operator is applied only when the node's output tensor is not yet
materialized: a materialized output yields no fusion, a fused node implies an
unmaterialized output, and on an unmaterialized output the dispatch performs
exactly the relu attribute rewrite through `conv_fuse`. -/
theorem C4_activation_fusion_only_unmaterialized
    (convFuse : FusionRewrite → Option Nat) (convBnFold : Option Nat)
    (alpha beta : ℚ) (out : Tensor) :
    (out.materialized = true →
      web_activation_fold convFuse convBnFold
        (eltwise_fusion_attr true alpha beta) out = none) ∧
      (∀ n, web_activation_fold convFuse convBnFold
          (eltwise_fusion_attr true alpha beta) out = some n →
        out.materialized = false) ∧
      (out.materialized = false →
        web_activation_fold convFuse convBnFold
          (eltwise_fusion_attr true alpha beta) out =
          convFuse (.relu alpha beta)) := by
  refine ⟨?_, ?_, ?_⟩
  · intro hmat
    unfold web_activation_fold
    simp [hmat]
  · intro n hn
    cases hdm : out.materialized
    · rfl
    · unfold web_activation_fold at hn
      simp [hdm] at hn
  · intro hmat
    unfold web_activation_fold
    simp only [hmat, Bool.false_eq_true, if_false]
    unfold fuse_if_necessary eltwise_fusion_attr
    simp

/-- C4 witness: the activation theorem applied to a concrete unmaterialized
output tensor, showing the relu rewrite goes through. -/
theorem C4_witness :
    web_activation_fold (fun _ => some 9) none
        (eltwise_fusion_attr true (1 / 2) 0)
        ⟨⟨[1, 4, 8, 8], DataType.f32, 0⟩, 3, false⟩ =
      (fun _ => some 9 : FusionRewrite → Option Nat)
        (FusionRewrite.relu (1 / 2) 0) :=
  (C4_activation_fusion_only_unmaterialized (fun _ => some 9) none (1 / 2) 0
    ⟨⟨[1, 4, 8, 8], DataType.f32, 0⟩, 3, false⟩).2.2 rfl

/-! ## Fold-result caching on the weight tensor (`conv_bn_folding`) -/

/-- Weight tensor together with its `opts` side-channel.  When present, the
side-channel holds, in `set_opts` order (computations.hpp lines 1357-1359),
the folded weights at index 0, the folded bias at index 1 and the statistics
dependency tensor `deps[2]` at index 2 — the indices read back at lines
1340-1343. -/
structure WeightsTensor where
  base : Tensor
  opts : Option (Tensor × Tensor × Tensor)
deriving DecidableEq

/-- Dependency tensors of a batch-norm fold as carried in `tar_attr.deps`:
index 0 is the mean, 1 the variance, 2 the scale and 3 the shift, matching the
`bn_attrs` indices `bn_folding` reads. -/
structure BnDeps where
  mean : Tensor
  variance : Tensor
  scale : Tensor
  shift : Tensor
deriving DecidableEq

/-- Guard of the cached-fold branch (computations.hpp lines 1339-1341):
the weight tensor has opts and the stored dependency tensor's raw data handle
equals the incoming `deps[2]` handle. -/
def foldCacheHit (weights : WeightsTensor) (statsHandle : Nat) : Bool :=
  match weights.opts with
  | some (_, _, st) => st.handle == statsHandle
  | none => false

/-- The `conv_bn_folding` closure body minus the fused-node plumbing
(computations.hpp lines 1331-1360): on a cache hit the previously folded
weight and bias are reused and the fold computation is skipped; otherwise
`bn_folding` runs — its outcome is a parameter, since a failing engine call
propagates as an exception — and only after it has fully succeeded are the
folded weight, the folded bias and the statistics dependency stored on the
weight tensor's opts side-channel.  The result carries the fold outcome, the
post-state of the weight tensor and whether the fold computation ran. -/
def conv_bn_folding (bnFoldResult : Except Nat (Tensor × Tensor))
    (weights : WeightsTensor) (deps : BnDeps) :
    Except Nat (Tensor × Tensor) × WeightsTensor × Bool :=
  match weights.opts with
  | some (fw, fb, st) =>
    if st.handle = deps.scale.handle then (.ok (fw, fb), weights, false)
    else
      match bnFoldResult with
      | .error e => (.error e, weights, false)
      | .ok (fw', fb') =>
        (.ok (fw', fb'), ⟨weights.base, some (fw', fb', deps.scale)⟩, true)
  | none =>
    match bnFoldResult with
    | .error e => (.error e, weights, false)
    | .ok (fw', fb') =>
      (.ok (fw', fb'), ⟨weights.base, some (fw', fb', deps.scale)⟩, true)

/-- C8: a failing fold never mutates cached state — when the fold computation
raises, the error propagates in the miss path, the weight tensor's opts
side-channel is left exactly as it was, no successful fold is recorded, and
the fold cache is written only after a fully successful fold (a changed
side-channel implies the fold returned ok). -/
theorem C8_failed_fold_mutates_nothing
    (bnFoldResult : Except Nat (Tensor × Tensor)) (weights : WeightsTensor)
    (deps : BnDeps) :
    (∀ e, bnFoldResult = .error e →
      (conv_bn_folding bnFoldResult weights deps).2.1 = weights ∧
        (conv_bn_folding bnFoldResult weights deps).2.2 = false ∧
        (foldCacheHit weights deps.scale.handle = false →
          (conv_bn_folding bnFoldResult weights deps).1 = .error e)) ∧
      ((conv_bn_folding bnFoldResult weights deps).2.1.opts ≠ weights.opts →
        ∃ fw fb, bnFoldResult = .ok (fw, fb)) := by
  constructor
  · intro e herr
    subst herr
    unfold conv_bn_folding foldCacheHit
    cases hopts : weights.opts with
    | none => exact ⟨rfl, rfl, fun _ => rfl⟩
    | some o =>
      obtain ⟨fw, fb, st⟩ := o
      dsimp only
      by_cases hst : st.handle = deps.scale.handle
      · refine ⟨by rw [if_pos hst], by rw [if_pos hst], fun hmiss => ?_⟩
        exfalso
        simp [hst] at hmiss
      · exact ⟨by rw [if_neg hst], by rw [if_neg hst], fun _ => by rw [if_neg hst]⟩
  · intro hchanged
    cases hres : bnFoldResult with
    | ok p =>
      obtain ⟨fw, fb⟩ := p
      exact ⟨fw, fb, rfl⟩
    | error e =>
      exfalso
      apply hchanged
      rw [hres]
      unfold conv_bn_folding
      cases hopts : weights.opts with
      | none => exact hopts
      | some o =>
        obtain ⟨fw, fb, st⟩ := o
        dsimp only
        by_cases hst : st.handle = deps.scale.handle
        · rw [if_pos hst]
          exact hopts
        · rw [if_neg hst]
          exact hopts

/-- C8 witness: the theorem applied to a concrete failing fold against a
weight tensor with no cached opts. -/
theorem C8_witness :
    (conv_bn_folding (.error 3)
        ⟨⟨⟨[4, 3, 3, 3], DataType.f32, 0⟩, 10, true⟩, none⟩
        ⟨⟨⟨[4], DataType.f32, 0⟩, 20, true⟩, ⟨⟨[4], DataType.f32, 0⟩, 21, true⟩,
          ⟨⟨[4], DataType.f32, 0⟩, 22, true⟩,
          ⟨⟨[4], DataType.f32, 0⟩, 23, true⟩⟩).2.1 =
      ⟨⟨⟨[4, 3, 3, 3], DataType.f32, 0⟩, 10, true⟩, none⟩ :=
  ((C8_failed_fold_mutates_nothing (.error 3)
    ⟨⟨⟨[4, 3, 3, 3], DataType.f32, 0⟩, 10, true⟩, none⟩
    ⟨⟨⟨[4], DataType.f32, 0⟩, 20, true⟩, ⟨⟨[4], DataType.f32, 0⟩, 21, true⟩,
      ⟨⟨[4], DataType.f32, 0⟩, 22, true⟩,
      ⟨⟨[4], DataType.f32, 0⟩, 23, true⟩⟩).1 3 rfl).1

/-- C9: when the weight tensor already carries cached fold results whose
stored statistics tensor has the same raw buffer handle as the incoming
statistics tensor, the fold computation is skipped entirely and the cached
folded weight and bias are returned; otherwise, once the fold computation
succeeds, its folded weight, folded bias and the statistics tensor are stored
on the weight tensor's opts side-channel and the fold is recorded as having
run. -/
theorem C9_fold_cache_hit_by_handle
    (bnFoldResult : Except Nat (Tensor × Tensor)) (weights : WeightsTensor)
    (deps : BnDeps) :
    (∀ fw fb st, weights.opts = some (fw, fb, st) →
      st.handle = deps.scale.handle →
      conv_bn_folding bnFoldResult weights deps = (.ok (fw, fb), weights, false)) ∧
      (∀ fw' fb', foldCacheHit weights deps.scale.handle = false →
        bnFoldResult = .ok (fw', fb') →
        conv_bn_folding bnFoldResult weights deps =
          (.ok (fw', fb'), ⟨weights.base, some (fw', fb', deps.scale)⟩, true)) := by
  constructor
  · intro fw fb st hopts hst
    unfold conv_bn_folding
    rw [hopts]
    dsimp only
    rw [if_pos hst]
  · intro fw' fb' hmiss hres
    subst hres
    unfold conv_bn_folding
    unfold foldCacheHit at hmiss
    cases hopts : weights.opts with
    | none => rfl
    | some o =>
      obtain ⟨fw, fb, st⟩ := o
      rw [hopts] at hmiss
      simp only [beq_eq_false_iff_ne, ne_eq] at hmiss
      dsimp only
      rw [if_neg hmiss]

/-- C9 witness: the hit branch of the theorem applied to a weight tensor whose
cached statistics tensor shares the raw handle 22 with the incoming
statistics tensor. -/
theorem C9_witness :
    conv_bn_folding (.error 3)
        ⟨⟨⟨[4, 3, 3, 3], DataType.f32, 0⟩, 10, true⟩,
          some (⟨⟨[4, 3, 3, 3], DataType.f32, 0⟩, 30, true⟩,
            ⟨⟨[4], DataType.f32, 0⟩, 31, true⟩,
            ⟨⟨[4], DataType.f32, 0⟩, 22, true⟩)⟩
        ⟨⟨⟨[4], DataType.f32, 0⟩, 20, true⟩, ⟨⟨[4], DataType.f32, 0⟩, 21, true⟩,
          ⟨⟨[4], DataType.f32, 0⟩, 22, true⟩,
          ⟨⟨[4], DataType.f32, 0⟩, 23, true⟩⟩ =
      (.ok (⟨⟨[4, 3, 3, 3], DataType.f32, 0⟩, 30, true⟩,
        ⟨⟨[4], DataType.f32, 0⟩, 31, true⟩),
        ⟨⟨⟨[4, 3, 3, 3], DataType.f32, 0⟩, 10, true⟩,
          some (⟨⟨[4, 3, 3, 3], DataType.f32, 0⟩, 30, true⟩,
            ⟨⟨[4], DataType.f32, 0⟩, 31, true⟩,
            ⟨⟨[4], DataType.f32, 0⟩, 22, true⟩)⟩, false) :=
  (C9_fold_cache_hit_by_handle (.error 3)
    ⟨⟨⟨[4, 3, 3, 3], DataType.f32, 0⟩, 10, true⟩,
      some (⟨⟨[4, 3, 3, 3], DataType.f32, 0⟩, 30, true⟩,
        ⟨⟨[4], DataType.f32, 0⟩, 31, true⟩,
        ⟨⟨[4], DataType.f32, 0⟩, 22, true⟩)⟩
    ⟨⟨⟨[4], DataType.f32, 0⟩, 20, true⟩, ⟨⟨[4], DataType.f32, 0⟩, 21, true⟩,
      ⟨⟨[4], DataType.f32, 0⟩, 22, true⟩,
      ⟨⟨[4], DataType.f32, 0⟩, 23, true⟩⟩).1
    ⟨⟨[4, 3, 3, 3], DataType.f32, 0⟩, 30, true⟩
    ⟨⟨[4], DataType.f32, 0⟩, 31, true⟩
    ⟨⟨[4], DataType.f32, 0⟩, 22, true⟩ rfl rfl

/-! ## `reorder::compute` and its empty-tensor early return -/

/-- Observable actions of one `reorder::compute` call, logged in program
order: deriving the cache key, probing the computation cache via
`fetch_or_create_m`, enqueuing a computation node into the web, executing the
reorder eagerly. -/
inductive Ev
  | keyDerived (key : Bytestring)
  | cacheProbed
  | enqueued
  | executed
deriving DecidableEq

/-- Modelled from the spec: the `utils::create_key` invocation of
`reorder::compute` (computations.hpp lines 666-668) — the ordered
concatenation of the encodings of the input dims, data type and layout tag,
the output dims, data type and layout tag, and the attribute bytes. -/
def create_key_reorder (input output : Tensor) (attr : AttrT) : Bytestring :=
  dimsBytes input.desc.dims ++ bytes4 (dataTypeCode input.desc.dataType)
    ++ bytes4 ((input.desc.fmt : U32)) ++ dimsBytes output.desc.dims
    ++ bytes4 (dataTypeCode output.desc.dataType)
    ++ bytes4 ((output.desc.fmt : U32)) ++ attr_t.to_bytes attr

/-- The static `reorder::compute` entry point (computations.hpp lines
659-684): empty input or output returns immediately; otherwise the key is
derived, the reorder cache is probed (building on a miss), and the call either
enqueues a computation node into the web — when the web optimization is on,
the reorder is not synchronous and the dependency setup succeeds — or runs
the reorder eagerly, materializing the output.  The result carries the
post-state of the reorder cache, the post-state of the output tensor and the
event log. -/
def reorder_compute (syncReorder webOpt : Bool) (cap : Nat)
    (buildDepsOk : Bool) (attr : AttrT) (input output : Tensor)
    (st : CacheState Bytestring) :
    CacheState Bytestring × Tensor × List Ev :=
  if input.is_empty || output.is_empty then (st, output, [])
  else
    let key := create_key_reorder input output attr
    let r := fetchOrCreate cap st key
    if webOpt && !syncReorder && buildDepsOk then
      (r.1, output, [.keyDerived key, .cacheProbed, .enqueued])
    else
      (r.1, { output with materialized := true },
        [.keyDerived key, .cacheProbed, .executed])

/-- C10: when the input or the output tensor is empty, `reorder::compute`
returns immediately — no cache key is derived, the computation cache is left
untouched, the output tensor is not modified and no node is enqueued (the
event log is empty). -/
theorem C10_reorder_empty_early_return (syncReorder webOpt : Bool)
    (cap : Nat) (buildDepsOk : Bool) (attr : AttrT) (input output : Tensor)
    (st : CacheState Bytestring)
    (h : input.is_empty = true ∨ output.is_empty = true) :
    reorder_compute syncReorder webOpt cap buildDepsOk attr input output st =
      (st, output, []) := by
  unfold reorder_compute
  rcases h with h | h <;> simp [h]

/-- C10 witness: the early-return theorem applied to a concrete empty input
tensor against a capacity-1024 cache. -/
theorem C10_witness :
    reorder_compute true false 1024 false ⟨[], [], 0⟩
        ⟨⟨[], DataType.f32, 0⟩, 0, false⟩
        ⟨⟨[2, 2], DataType.f32, 0⟩, 1, true⟩ ⟨[], 0⟩ =
      (⟨[], 0⟩, ⟨⟨[2, 2], DataType.f32, 0⟩, 1, true⟩, []) :=
  C10_reorder_empty_early_return true false 1024 false ⟨[], [], 0⟩
    ⟨⟨[], DataType.f32, 0⟩, 0, false⟩
    ⟨⟨[2, 2], DataType.f32, 0⟩, 1, true⟩ ⟨[], 0⟩ (Or.inl rfl)

end Ideep
